import Mathlib

/-!
Verification of the transcript-assembly core.

A shallow embedding, in Lean 4, of the core of a tool that reconstructs prose
transcripts from captured WebVTT subtitle segment files and drives the work
through a pool of cooperative workers sharing one job queue.

The embedding follows `vtt.ts` (segment parsing and transcript generation),
`worker.ts` (the worker pool), the VTT interceptor's idempotent segment store,
and `manifest.ts` (queue building).  JavaScript strings are modelled through
their character lists (`String.data`); the string helpers below mirror the
ASCII fragment of the JavaScript string primitives actually exercised by the
program (`trim`, `split`, `includes`, `startsWith`, `toUpperCase` on the
first character, and so on).
-/

/-! ## JavaScript string primitives (character-list level) -/

/-- Whitespace test mirroring the ASCII fragment of JavaScript's string
trimming (space, tab, newline, carriage return). -/
def jsIsWs (c : Char) : Bool :=
  c == ' ' || c == '\t' || c == '\n' || c == '\r'

/-- `String.prototype.trim`: drop leading and trailing whitespace. -/
def jsTrim (cs : List Char) : List Char :=
  ((cs.dropWhile jsIsWs).reverse.dropWhile jsIsWs).reverse

/-- `String.prototype.trimEnd`: drop trailing whitespace. -/
def jsTrimEnd (cs : List Char) : List Char :=
  (cs.reverse.dropWhile jsIsWs).reverse

/-- `String.prototype.trim` repackaged as a `String` transformer. -/
def jsTrimS (s : String) : String := String.mk (jsTrim s.data)

/-- `str.split(sep)` for a one-character separator: JavaScript semantics,
so `"a\n\nb"` splits into `["a", "", "b"]` and a trailing separator yields a
trailing empty piece. -/
def splitOnChar (sep : Char) : List Char → List (List Char)
  | [] => [[]]
  | c :: rest =>
    match splitOnChar sep rest with
    | [] => [[]]
    | h :: t => if c == sep then [] :: h :: t else (c :: h) :: t

/-- `str.includes(pat)`: substring test. -/
def containsSub (pat : List Char) : List Char → Bool
  | [] => pat.isEmpty
  | c :: rest => pat.isPrefixOf (c :: rest) || containsSub pat rest

/-- `str.split(pat)[0]`: the characters before the first occurrence of `pat`
(the whole string when `pat` does not occur). -/
def takeUntilSub (pat : List Char) : List Char → List Char
  | [] => []
  | c :: rest => if pat.isPrefixOf (c :: rest) then [] else c :: takeUntilSub pat rest

/-- `lines.join(" ")`. -/
def joinWithSpace : List (List Char) → List Char
  | [] => []
  | [l] => l
  | l :: ls => l ++ ' ' :: joinWithSpace ls

/-! ## Cue decoding (`parseVttFile`, `parseVttBlock`, `getStartTimeMs`) -/

/-- One decoded cue record, as in `vtt.ts` (`VttSegment`). -/
structure VttSegment where
  timeRange : String
  content : String
  contentId : Option String
  deriving DecidableEq, Repr

/-- The `" --> "` range separator of `PATTERNS.TIME_RANGE_SEPARATOR`. -/
def timeSep : List Char := (" --> ").data

/-- The alternatives of the anchored header regex
`/^(WEBVTT|X-TIMESTAMP-MAP|NOTE|Kind:|Language:)/`. -/
def VTT_HEADER_NAMES : List String :=
  ["WEBVTT", "X-TIMESTAMP-MAP", "NOTE", "Kind:", "Language:"]

/-- `line.match(PATTERNS.VTT_HEADER_BLOCKS)`: the trimmed line starts with one
of the header alternatives. -/
def headerLine (line : List Char) : Bool :=
  VTT_HEADER_NAMES.any fun h => h.data.isPrefixOf line

/-- `/^\d+$/.test(s)`: non-empty and all decimal digits. -/
def isAllDigits (cs : List Char) : Bool :=
  !cs.isEmpty && cs.all (·.isDigit)

/-- `parseVttBlock` from `vtt.ts`: locate the range line; a block without one
is discarded (`null`); an all-digit line strictly before the range line is the
optional sequence id; the lines after the range line, joined with a single
space and trimmed, form the cue text. -/
def parseVttBlock (lines : List (List Char)) : Option VttSegment :=
  match lines.findIdx? (containsSub timeSep) with
  | none => none
  | some i =>
    let timeRange := (lines.drop i).headD []
    let first := lines.headD []
    let contentId := if 0 < i && isAllDigits first then some (String.mk first) else none
    let content := jsTrim (joinWithSpace (lines.drop (i + 1)))
    some ⟨String.mk timeRange, String.mk content, contentId⟩

/-- The line loop of `parseVttFile`: trim each line; a blank line closes the
current block (parsing it if non-empty); header/metadata lines are skipped
wherever they appear; other lines accumulate into the current block; the final
block is closed at end of input. -/
def parseVttLines : List (List Char) → List (List Char) → List VttSegment
  | [], block =>
    if block.isEmpty then [] else (parseVttBlock block).toList
  | raw :: rest, block =>
    let line := jsTrim raw
    if line.isEmpty then
      (if block.isEmpty then [] else (parseVttBlock block).toList) ++ parseVttLines rest []
    else if headerLine line then
      parseVttLines rest block
    else
      parseVttLines rest (block ++ [line])

/-- `parseVttFile` from `vtt.ts`, as a pure function of the file's text:
`content.trim().split("\n")` followed by the block-building loop.  Total by
construction, returning a (possibly empty) cue list. -/
def parseVttFile (content : String) : List VttSegment :=
  parseVttLines (splitOnChar '\n' (jsTrim content.data)) []

/-- Decimal value of a digit character. -/
def digitVal (c : Char) : Nat := c.toNat - ('0').toNat

/-- One attempt of the unanchored regex `/(\d{2}):(\d{2}):(\d{2})\.(\d{3})/`
at the head of the character list, returning the millisecond value
`(h * 3600 + m * 60 + s) * 1000 + ms` computed by `getStartTimeMs`. -/
def matchTimestampAt (cs : List Char) : Option Nat :=
  match cs with
  | h1 :: h2 :: c1 :: m1 :: m2 :: c2 :: s1 :: s2 :: d :: x1 :: x2 :: x3 :: _ =>
    if h1.isDigit && h2.isDigit && c1 == ':' && m1.isDigit && m2.isDigit && c2 == ':' &&
        s1.isDigit && s2.isDigit && d == '.' && x1.isDigit && x2.isDigit && x3.isDigit then
      some (((10 * digitVal h1 + digitVal h2) * 3600 +
             (10 * digitVal m1 + digitVal m2) * 60 +
             (10 * digitVal s1 + digitVal s2)) * 1000 +
            (100 * digitVal x1 + 10 * digitVal x2 + digitVal x3))
    else none
  | _ => none

/-- Leftmost match of the timestamp regex anywhere in the list. -/
def scanTimestamp : List Char → Option Nat
  | [] => none
  | c :: rest =>
    match matchTimestampAt (c :: rest) with
    | some v => some v
    | none => scanTimestamp rest

/-- `getStartTimeMs` from `vtt.ts`: match the timestamp pattern against the
part of the time-range line before `" --> "`; failure to match yields `0`. -/
def getStartTimeMs (segment : VttSegment) : Nat :=
  match scanTimestamp (takeUntilSub timeSep segment.timeRange.data) with
  | some v => v
  | none => 0

/-! ## Transcript assembly (`processSegments`, `processVideo`) -/

/-- The fixed continuation-word list of `processSegments`. -/
def CONTINUATION_WORDS : List String :=
  ["And", "But", "Or", "So", "Then", "However", "Therefore"]

/-- `[".", "!", "?", ":", ";"]` of the new-sentence test. -/
def NEW_SENTENCE_PUNCT : List Char := ['.', '!', '?', ':', ';']

/-- `[".", "!", "?"]` of the sentence-flush test. -/
def FLUSH_PUNCT : List Char := ['.', '!', '?']

/-- `list.includes(s.trimEnd().slice(-1))`: `slice(-1)` of an empty string is
`""`, which is never in the list, hence `none ↦ false`. -/
def optCharIn (l : List Char) : Option Char → Bool
  | some c => l.contains c
  | none => false

/-- The sentence logic of one `processSegments` loop iteration, after the
dedup guard, acting on the pair (result list, current sentence) for a cue
text `content` (already trimmed, non-empty, unseen):

* with no sentence in progress the cue starts one;
* otherwise the cue opens a new sentence when its first character equals its
  own `toUpperCase` and the accumulator's last non-whitespace character is not
  `. ! ? : ;`, unless the cue starts with a continuation word followed by a
  space — in which case it is appended after a single space;
* finally, an accumulator now ending in `. ! ?` is flushed to the result. -/
def textStep (rc : List String × String) (content : String) : List String × String :=
  let step1 : List String × String :=
    if rc.2.data.isEmpty then (rc.1, content)
    else
      let lastChar := (jsTrimEnd rc.2.data).getLast?
      let firstUpper :=
        match content.data.head? with
        | some c => c.toUpper == c
        | none => true
      let isNewSentence := firstUpper && !(optCharIn NEW_SENTENCE_PUNCT lastChar)
      let isContinuation :=
        CONTINUATION_WORDS.any fun w => (w.data ++ [' ']).isPrefixOf content.data
      if isNewSentence && !isContinuation then (rc.1 ++ [rc.2], content)
      else (rc.1, rc.2 ++ " " ++ content)
  if optCharIn FLUSH_PUNCT ((jsTrimEnd step1.2.data).getLast?) then
    (step1.1 ++ [step1.2], "")
  else step1

/-- Assembly state of `processSegments`: the dedup set (insertion order is
irrelevant, only membership is consulted), the output paragraph list, and the
current sentence accumulator. -/
structure AsmState where
  seen : List String
  result : List String
  current : String

/-- One full iteration of the `processSegments` loop for one cue: trim the
cue text, skip it when empty or already seen, otherwise record it as seen and
run the sentence logic. -/
def processStep (st : AsmState) (segment : VttSegment) : AsmState :=
  let content := jsTrimS segment.content
  if content.data.isEmpty || st.seen.contains content then st
  else
    let rc := textStep (st.result, st.current) content
    ⟨content :: st.seen, rc.1, rc.2⟩

/-- `result.join("\n\n")`. -/
def joinParagraphs : List String → String
  | [] => ""
  | [p] => p
  | p :: ps => p ++ "\n\n" ++ joinParagraphs ps

/-- `processSegments` from `vtt.ts`: fold the loop over the cues starting
from empty state, flush a non-empty final accumulator, and join the paragraph
list with blank lines. -/
def processSegments (segments : List VttSegment) : String :=
  let fin := segments.foldl processStep ⟨[], [], ""⟩
  joinParagraphs (if fin.current.data.isEmpty then fin.result else fin.result ++ [fin.current])

/-- The comparison key order of `allSegments.sort((a, b) => getStartTimeMs(a)
- getStartTimeMs(b))`. -/
def cueLE (a b : VttSegment) : Prop := getStartTimeMs a ≤ getStartTimeMs b

instance : DecidableRel cueLE := fun _ _ => Nat.decLe _ _

/-- The stable sort of `processVideo` (`Array.prototype.sort` is stable, so
any stable sort by the same key order is extensionally the same function;
insertion sort is stable). -/
def sortCues (segments : List VttSegment) : List VttSegment :=
  List.insertionSort cueLE segments

/-- The cue-collection loop of `processVideo`: parse every segment file in
enumeration order and concatenate the results. -/
def allCues (files : List String) : List VttSegment :=
  (files.map parseVttFile).flatten

/-- The transcript `processVideo` computes for a list of segment-file
contents: parse all files, sort by start time, process. -/
def assembleTranscript (files : List String) : String :=
  processSegments (sortCues (allCues files))

/-- The observable outcome of `processVideo` as a function of the segment
files found for the video: `none` models `return false` with no transcript
written (no segment files, or no cue parsed from them); `some t` models a
successful run that writes exactly the string `t` to the output file and
returns `true`.  (The missing-directory check and a thrown write error are
filesystem conditions outside the model.) -/
def processVideoModel (files : List String) : Option String :=
  if files.isEmpty then none
  else if (allCues files).isEmpty then none
  else some (assembleTranscript files)

/-- The subsequence of trimmed cue texts that survive the dedup guard of
`processSegments`, given the dedup set accumulated so far: exactly the texts
the assembler incorporates, in incorporation order. -/
def visibleTexts : List String → List VttSegment → List String
  | _, [] => []
  | seen, s :: rest =>
    let content := jsTrimS s.content
    if content.data.isEmpty || seen.contains content then visibleTexts seen rest
    else content :: visibleTexts (content :: seen) rest

/-- Paragraph list produced by folding the sentence logic over a list of cue
texts (the dedup-free core of `processSegments`). -/
def assembleParagraphs (texts : List String) : List String :=
  let rc := texts.foldl textStep ([], "")
  if rc.2.data.isEmpty then rc.1 else rc.1 ++ [rc.2]

/-! ## Segment store (`handleVttResponse` / `VttInterceptor.handleResponse`) -/

/-- The on-disk segment store: persisted raw files keyed by identity key
`(videoId, segmentName)`, kept in write order. -/
abbrev SegmentStore : Type := List ((String × String) × String)

/-- `fs.existsSync` on the path derived from the identity key: the bytes
stored under the key, if present. -/
def storeLookup (k : String × String) : SegmentStore → Option String
  | [] => none
  | (k', b) :: rest => if k = k' then some b else storeLookup k rest

/-- The persistence step of `handleVttResponse` (and, identically, of
`VttInterceptor.handleResponse`) once a response has passed the URL and
status gates: if `fs.existsSync(outputFilename)` the handler returns without
writing, otherwise it writes the response bytes under the key. -/
def putSegment (store : SegmentStore) (videoId segmentName bytes : String) : SegmentStore :=
  if (storeLookup (videoId, segmentName) store).isSome then store
  else store ++ [((videoId, segmentName), bytes)]

/-! ## Job-queue building (`manifest.ts`, current version) -/

/-- A lecture entry of the manifest. -/
structure Lecture where
  id : String
  title : String
  url : String
  deriving DecidableEq, Repr

/-- A manifest section: its title and its lectures. -/
structure Section where
  section_title : String
  lectures : List Lecture
  deriving DecidableEq, Repr

/-- The scraped course manifest. -/
structure Manifest where
  sections : List Section
  deriving DecidableEq, Repr

/-- A work item of the lecture queue (`QueueItem`); the `section` field of
the source is spelled `sectionTitle` because `section` is a Lean keyword. -/
structure QueueItem where
  sectionTitle : String
  lecture : Lecture
  deriving DecidableEq, Repr

/-- Value of the leading digit run of `cs`, the remaining characters being
ignored; `none` when `cs` does not start with a digit. -/
def digitsVal (cs : List Char) : Option Nat :=
  let ds := cs.takeWhile (·.isDigit)
  if ds.isEmpty then none
  else some (ds.foldl (fun acc c => 10 * acc + digitVal c) 0)

/-- `parseInt(s, 10)`: skip leading whitespace, accept an optional sign, then
read a non-empty run of decimal digits, ignoring everything after it.  `none`
models `NaN`. -/
def jsParseInt10 (s : String) : Option Int :=
  match s.data.dropWhile jsIsWs with
  | '-' :: rest => (digitsVal rest).map fun v => -(v : Int)
  | '+' :: rest => (digitsVal rest).map fun v => (v : Int)
  | rest => (digitsVal rest).map fun v => (v : Int)

/-- `String.prototype.toLowerCase`, ASCII fragment. -/
def jsToLowerS (s : String) : String := String.mk (s.data.map Char.toLower)

/-- `buildLectureQueue` from `manifest.ts`: with a `session` filter, a filter
that `parseInt` can read selects `manifest.sections[index - 1]` (1-based,
`undefined` when out of range); only a filter `parseInt` cannot read falls
back to the first section whose lowercased title contains the lowercased
filter.  The selected section's lectures form the queue; no selected section
yields the empty queue.  Without a filter all lectures are flattened and the
list is capped at `options.batchSize || 10`. -/
def buildLectureQueue (manifest : Manifest) (session : Option String)
    (batchSize : Option Nat) : List QueueItem :=
  match session with
  | some s =>
    let sec : Option Section :=
      match jsParseInt10 s with
      | some index =>
        if 0 ≤ index - 1 then manifest.sections[(index - 1).toNat]? else none
      | none =>
        let target := jsToLowerS s
        manifest.sections.find? fun c => containsSub target.data (jsToLowerS c.section_title).data
    match sec with
    | some c => c.lectures.map fun l => ⟨c.section_title, l⟩
    | none => []
  | none =>
    let queue := manifest.sections.flatMap fun c => c.lectures.map fun l => ⟨c.section_title, l⟩
    let bs := match batchSize with
      | none => 10
      | some 0 => 10
      | some k => k
    queue.take bs

/-! ## Worker pool (`worker.ts`)

`runWorkerPool` spawns `concurrency` drain loops over one shared queue on a
single-threaded cooperative event loop: workers interleave only at `await`
points.  The `sharedQueue.length > 0` check and `sharedQueue.shift()` contain
no `await`, so a pop is one indivisible step; `processLecture` suspends, so
processing one job is a separate step.  Its entire body is wrapped in
`try`/`catch` and every outcome reduces to the boolean it returns, modelled
by the oracle `succ`; `if (!ok) failed.push(item)` runs atomically with the
step that observes the outcome. -/

/-- What a worker is doing: at the top of its drain loop, processing one
popped job, or finished (`context.close()` after seeing the queue empty). -/
inductive WStatus (Job : Type) where
  | ready : WStatus Job
  | processing : Job → WStatus Job
  | closed : WStatus Job
  deriving DecidableEq, Repr

/-- One worker: its status and the jobs it has finished processing. -/
structure Worker (Job : Type) where
  status : WStatus Job
  processed : List Job
  deriving DecidableEq, Repr

/-- Pool state: the shared queue, the workers, and the shared `failed` list. -/
structure PoolState (Job : Type) where
  queue : List Job
  workers : List (Worker Job)
  failed : List Job
  deriving DecidableEq, Repr

/-- The job held by a worker in the given status, if any. -/
def WStatus.load {Job : Type} : WStatus Job → List Job
  | .processing j => [j]
  | _ => []

/-- The cooperative small-step semantics of the pool: any ready worker may
atomically pop the head job (or close when the queue is empty), and any
processing worker may finish its job, appending it to `failed` exactly when
the pipeline reported failure. -/
inductive PoolStep {Job : Type} (succ : Job → Bool) :
    PoolState Job → PoolState Job → Prop where
  | pop (s : PoolState Job) (i : Nat) (w : Worker Job) (j : Job) (rest : List Job) :
      s.workers[i]? = some w → w.status = .ready → s.queue = j :: rest →
      PoolStep succ s ⟨rest, s.workers.set i { w with status := .processing j }, s.failed⟩
  | popEmpty (s : PoolState Job) (i : Nat) (w : Worker Job) :
      s.workers[i]? = some w → w.status = .ready → s.queue = [] →
      PoolStep succ s ⟨[], s.workers.set i { w with status := .closed }, s.failed⟩
  | finish (s : PoolState Job) (i : Nat) (w : Worker Job) (j : Job) :
      s.workers[i]? = some w → w.status = .processing j →
      PoolStep succ s ⟨s.queue, s.workers.set i ⟨.ready, w.processed ++ [j]⟩,
        if succ j then s.failed else s.failed ++ [j]⟩

/-- Initial pool state: the queue holds all jobs, the `concurrency` workers
are ready, nothing has failed. -/
def initPool {Job : Type} (n : Nat) (jobs : List Job) : PoolState Job :=
  ⟨jobs, List.replicate n ⟨.ready, []⟩, []⟩

/-- Reachability under any interleaving of worker steps. -/
def PoolReach {Job : Type} (succ : Job → Bool) (n : Nat) (jobs : List Job)
    (s : PoolState Job) : Prop :=
  Relation.ReflTransGen (PoolStep succ) (initPool n jobs) s

/-- `Promise.all(workers)` has resolved: every worker reached `closed`. -/
def AllClosed {Job : Type} (s : PoolState Job) : Prop :=
  ∀ w ∈ s.workers, w.status = WStatus.closed

/-! ## Helper lemmas -/

/-- `storeLookup` looks in the appended suffix when the key is absent from
the prefix. -/
lemma storeLookup_append_of_none (l l' : SegmentStore) (k : String × String)
    (h : storeLookup k l = none) : storeLookup k (l ++ l') = storeLookup k l' := by
  induction l with
  | nil => rfl
  | cons p rest ih =>
    obtain ⟨k', b⟩ := p
    by_cases hk : k = k'
    · simp [storeLookup, hk] at h
    · simp only [storeLookup, if_neg hk] at h
      simpa only [List.cons_append, storeLookup, if_neg hk] using ih h

/-- A fresh write is immediately readable. -/
lemma storeLookup_putSegment_fresh (store : SegmentStore) (v n b : String)
    (h : storeLookup (v, n) store = none) :
    storeLookup (v, n) (putSegment store v n b) = some b := by
  unfold putSegment
  rw [h]
  simp only [Option.isSome_none, Bool.false_eq_true, if_false]
  rw [storeLookup_append_of_none _ _ _ h]
  simp [storeLookup]

/-- A write to a present key is a no-op. -/
lemma putSegment_of_present (store : SegmentStore) (v n b : String)
    (h : (storeLookup (v, n) store).isSome = true) : putSegment store v n b = store := by
  unfold putSegment
  rw [if_pos h]

/-- `findIdx?` finds nothing when the predicate never holds. -/
lemma findIdx?_eq_none_of_all_false {α : Type} (p : α → Bool) :
    ∀ (l : List α) (i : Nat), (∀ x ∈ l, p x = false) → List.findIdx? p l i = none := by
  intro l
  induction l with
  | nil => intro i _; rfl
  | cons x xs ih =>
    intro i h
    rw [List.findIdx?_cons, h x (by simp)]
    simp only [Bool.false_eq_true, if_false]
    exact ih (i + 1) fun y hy => h y (by simp [hy])

/-- The block loop never accumulates anything from blank or header lines, so
it produces no cue. -/
lemma parseVttLines_all_header (lines : List (List Char))
    (h : ∀ raw ∈ lines, jsTrim raw = [] ∨ headerLine (jsTrim raw) = true) :
    parseVttLines lines [] = [] := by
  induction lines with
  | nil => rfl
  | cons raw rest ih =>
    have hrest : parseVttLines rest [] = [] := ih fun r hr => h r (by simp [hr])
    rcases h raw (by simp) with he | hh
    · simp [parseVttLines, he, hrest]
    · by_cases he2 : (jsTrim raw).isEmpty
      · simp [parseVttLines, he2, hrest]
      · simp [parseVttLines, he2, hh, hrest]

/-! ## Claims -/

/-- **C6**  The cue sequence "The cat sat." then "And it slept." assembles
into exactly the two paragraphs "The cat sat." and "And it slept." in that
order: the terminal period of the first cue flushes its sentence before the
continuation-word rule could merge the second cue into it. -/
theorem scenarioB_two_paragraphs :
    processSegments [⟨"00:00:00.000 --> 00:00:01.000", "The cat sat.", none⟩,
                     ⟨"00:00:01.000 --> 00:00:02.000", "And it slept.", none⟩] =
      "The cat sat." ++ "\n\n" ++ "And it slept." := by
  decide

/-- **C7**  Idempotent segment writes: with the identity key initially
absent, putting bytes `b1` and then `b2` under the same `(videoId,
segmentName)` leaves the store of the first write unchanged (the second put
is a silent no-op), and after any further sequence of puts under that key the
store still holds exactly `b1` for it. -/
theorem putSegment_first_write_wins (store : SegmentStore) (v n b1 b2 : String)
    (bs : List String) (h : storeLookup (v, n) store = none) :
    putSegment (putSegment store v n b1) v n b2 = putSegment store v n b1 ∧
    storeLookup (v, n)
        (bs.foldl (fun st b => putSegment st v n b) (putSegment store v n b1)) = some b1 := by
  have h1 : storeLookup (v, n) (putSegment store v n b1) = some b1 :=
    storeLookup_putSegment_fresh store v n b1 h
  refine ⟨putSegment_of_present _ _ _ _ (by rw [h1]; rfl), ?_⟩
  suffices H : ∀ (bs : List String) (st : SegmentStore), storeLookup (v, n) st = some b1 →
      storeLookup (v, n) (bs.foldl (fun st b => putSegment st v n b) st) = some b1 from
    H bs _ h1
  intro bs
  induction bs with
  | nil => intro st h2; exact h2
  | cons b rest ih =>
    intro st h2
    rw [List.foldl_cons, putSegment_of_present _ _ _ _ (by rw [h2]; rfl)]
    exact ih st h2

/-- Witness for `putSegment_first_write_wins` at a concrete store and key. -/
theorem putSegment_first_write_wins_witness :
    storeLookup ("v1", "seg1") ([] : SegmentStore) = none ∧
    (putSegment (putSegment [] "v1" "seg1" "AAA") "v1" "seg1" "BBB" =
        putSegment [] "v1" "seg1" "AAA" ∧
      storeLookup ("v1", "seg1")
          (["CCC", "DDD"].foldl (fun st b => putSegment st "v1" "seg1" b)
            (putSegment [] "v1" "seg1" "AAA")) = some "AAA") :=
  ⟨rfl, putSegment_first_write_wins [] "v1" "seg1" "AAA" "BBB" ["CCC", "DDD"] rfl⟩

/-- **C8**  Cue decoding is total and lenient: a block with no `" --> "`
line is silently discarded; a buffer whose every line is blank or a
header/metadata line decodes to zero cues rather than an error; and a cue
whose time-range start does not match the `HH:MM:SS.mmm` pattern gets
`startMs = 0` rather than raising. -/
theorem cueDecoding_total_lenient :
    (∀ lines : List (List Char), (∀ l ∈ lines, containsSub timeSep l = false) →
        parseVttBlock lines = none) ∧
    (∀ content : String,
        (∀ raw ∈ splitOnChar '\n' (jsTrim content.data),
            jsTrim raw = [] ∨ headerLine (jsTrim raw) = true) →
        parseVttFile content = []) ∧
    (∀ segment : VttSegment,
        scanTimestamp (takeUntilSub timeSep segment.timeRange.data) = none →
        getStartTimeMs segment = 0) := by
  refine ⟨?_, ?_, ?_⟩
  · intro lines h
    unfold parseVttBlock
    rw [findIdx?_eq_none_of_all_false _ lines 0 h]
  · intro content h
    unfold parseVttFile
    exact parseVttLines_all_header _ h
  · intro segment h
    unfold getStartTimeMs
    rw [h]

/-- Witness for `cueDecoding_total_lenient`: a separator-free block, a
header-only buffer, and a garbage time range. -/
theorem cueDecoding_total_lenient_witness :
    ((∀ l ∈ [("cue text with no separator").data], containsSub timeSep l = false) ∧
      parseVttBlock [("cue text with no separator").data] = none) ∧
    ((∀ raw ∈ splitOnChar '\n' (jsTrim ("WEBVTT\nX-TIMESTAMP-MAP=LOCAL:00:00:00.000\nNOTE hello\nKind: captions\nLanguage: en").data),
        jsTrim raw = [] ∨ headerLine (jsTrim raw) = true) ∧
      parseVttFile "WEBVTT\nX-TIMESTAMP-MAP=LOCAL:00:00:00.000\nNOTE hello\nKind: captions\nLanguage: en" = []) ∧
    (scanTimestamp (takeUntilSub timeSep (VttSegment.mk "garbage" "" none).timeRange.data) = none ∧
      getStartTimeMs ⟨"garbage", "", none⟩ = 0) :=
  ⟨⟨by decide, cueDecoding_total_lenient.1 _ (by decide)⟩,
   ⟨by decide, cueDecoding_total_lenient.2.1 _ (by decide)⟩,
   ⟨by decide, cueDecoding_total_lenient.2.2 _ (by decide)⟩⟩

/-- A segment file holding one cue block with an empty cue text (nothing
after the range line). -/
def emptyCueFile : String := "WEBVTT\n\n00:00:01.000 --> 00:00:02.000\n"

/-- **C2, counterexample**  A video whose single segment file decodes to a
non-empty cue list (one cue, empty text) that assembles to the empty
document: `processVideo` writes the empty string to the output file and
returns success, instead of reporting "no transcript produced" and not
writing. -/
theorem processVideo_writes_empty_file :
    allCues [emptyCueFile] = [⟨"00:00:01.000 --> 00:00:02.000", "", none⟩] ∧
    processVideoModel [emptyCueFile] = some "" := by
  decide

/-- **C2, amended**  Whenever the segment files of a video decode to a
non-empty cue list whose assembly is the empty document, `processVideo` does
not detect this: it reports success and writes the empty string to the
output file.  (It reports failure only when there is no segment file or no
cue at all, or when the filesystem write itself throws.) -/
theorem processVideo_empty_assembly_reports_success (files : List String)
    (hne : allCues files ≠ [])
    (hempty : processSegments (sortCues (allCues files)) = "") :
    processVideoModel files = some "" := by
  have hf : files.isEmpty = false := by
    rcases files with _ | ⟨f, fs⟩
    · exact absurd rfl hne
    · rfl
  simp [processVideoModel, hf, List.isEmpty_iff, hne, assembleTranscript, hempty]

/-- Witness for `processVideo_empty_assembly_reports_success` at the
concrete empty-text segment file. -/
theorem processVideo_empty_assembly_reports_success_witness :
    (allCues [emptyCueFile] ≠ [] ∧
      processSegments (sortCues (allCues [emptyCueFile])) = "") ∧
    processVideoModel [emptyCueFile] = some "" :=
  ⟨⟨by decide, by decide⟩,
   processVideo_empty_assembly_reports_success [emptyCueFile] (by decide) (by decide)⟩

/-- Example lectures for the queue-building claim. -/
def lecA : Lecture := ⟨"a", "Lecture A", "urlA"⟩

/-- Second example lecture. -/
def lecB : Lecture := ⟨"b", "Lecture B", "urlB"⟩

/-- An example manifest in which the first section's title contains the
digit "2" while the second section sits at 1-based position 2, separating
the positional interpretation from the substring one. -/
def exampleManifest : Manifest := ⟨[⟨"B section 2", [lecA]⟩, ⟨"2 something", [lecB]⟩]⟩

/-- **C10**  With a session filter that `parseInt` can read, the queue
builder always uses the 1-based positional interpretation and never the
substring fallback; a filter (numeric out of range, or non-numeric matching
no title) that selects no section yields the empty queue, not an error; the
batch-size cap is never applied in a filtered run.  In the example manifest
the numeric filter "2" selects the second section positionally even though
the first section's title contains the substring "2". -/
theorem buildLectureQueue_numeric_filter :
    (∀ (m : Manifest) (s : String) (b : Option Nat) (i : Int),
        jsParseInt10 s = some i →
        buildLectureQueue m (some s) b =
          match (if 0 ≤ i - 1 then m.sections[(i - 1).toNat]? else none) with
          | some c => c.lectures.map fun l => ⟨c.section_title, l⟩
          | none => []) ∧
    (∀ (m : Manifest) (s : String) (b : Option Nat) (i : Int),
        jsParseInt10 s = some i → ¬(1 ≤ i ∧ i ≤ (m.sections.length : Int)) →
        buildLectureQueue m (some s) b = []) ∧
    (∀ (m : Manifest) (s : String) (b : Option Nat),
        jsParseInt10 s = none →
        (m.sections.find? fun c =>
            containsSub (jsToLowerS s).data (jsToLowerS c.section_title).data) = none →
        buildLectureQueue m (some s) b = []) ∧
    (∀ (m : Manifest) (s : String) (b b' : Option Nat),
        buildLectureQueue m (some s) b = buildLectureQueue m (some s) b') ∧
    buildLectureQueue exampleManifest (some "2") none = [⟨"2 something", lecB⟩] := by
  refine ⟨?_, ?_, ?_, ?_, by decide⟩
  · intro m s b i h
    simp only [buildLectureQueue, h]
  · intro m s b i h hrange
    simp only [buildLectureQueue, h]
    have hnone : (if 0 ≤ i - 1 then m.sections[(i - 1).toNat]? else none) = none := by
      by_cases h0 : 0 ≤ i - 1
      · rw [if_pos h0]
        apply List.getElem?_eq_none
        omega
      · rw [if_neg h0]
    rw [hnone]
  · intro m s b h hfind
    simp only [buildLectureQueue, h, hfind]
  · intro m s b b'
    simp only [buildLectureQueue]

/-- Witness for `buildLectureQueue_numeric_filter`: the numeric filter "2"
(in range), the numeric filter "9" (out of range), the non-numeric filter
"zzz" (no title match), and two different batch sizes. -/
theorem buildLectureQueue_numeric_filter_witness :
    (jsParseInt10 "2" = some 2 ∧
      buildLectureQueue exampleManifest (some "2") (some 1) = [⟨"2 something", lecB⟩]) ∧
    (jsParseInt10 "9" = some 9 ∧
      ¬(1 ≤ (9 : Int) ∧ (9 : Int) ≤ (exampleManifest.sections.length : Int)) ∧
      buildLectureQueue exampleManifest (some "9") none = []) ∧
    (jsParseInt10 "zzz" = none ∧
      (exampleManifest.sections.find? fun c =>
          containsSub (jsToLowerS "zzz").data (jsToLowerS c.section_title).data) = none ∧
      buildLectureQueue exampleManifest (some "zzz") none = []) ∧
    buildLectureQueue exampleManifest (some "2") (some 1) =
      buildLectureQueue exampleManifest (some "2") (some 5) :=
  ⟨⟨by decide, buildLectureQueue_numeric_filter.1 exampleManifest "2" (some 1) 2 (by decide)⟩,
   ⟨by decide, by decide,
    buildLectureQueue_numeric_filter.2.1 exampleManifest "9" none 9 (by decide) (by decide)⟩,
   ⟨by decide, by decide,
    buildLectureQueue_numeric_filter.2.2.1 exampleManifest "zzz" none (by decide) (by decide)⟩,
   buildLectureQueue_numeric_filter.2.2.2.1 exampleManifest "2" (some 1) (some 5)⟩

/-- A cue whose dedup guard does not fire is incorporated: the step records
the text as seen and runs the sentence logic. -/
lemma processStep_not_skipped (st : AsmState) (seg : VttSegment)
    (h2 : (jsTrimS seg.content).data ≠ [])
    (h3 : st.seen.contains (jsTrimS seg.content) = false) :
    processStep st seg =
      ⟨jsTrimS seg.content :: st.seen,
        (textStep (st.result, st.current) (jsTrimS seg.content)).1,
        (textStep (st.result, st.current) (jsTrimS seg.content)).2⟩ := by
  have h3' : jsTrimS seg.content ∉ st.seen := by simpa using h3
  unfold processStep
  simp [h2, h3']

/-- Case normal form of the sentence logic when a sentence is in progress:
the branch condition of the source, then the flush check on the branch's
accumulator. -/
lemma textStep_cases (r : List String) (cur t : String) (hcur : cur.data ≠ []) :
    textStep (r, cur) t =
      if ((match t.data.head? with
            | some c => c.toUpper == c
            | none => true) &&
          !(optCharIn NEW_SENTENCE_PUNCT ((jsTrimEnd cur.data).getLast?)) &&
          !(CONTINUATION_WORDS.any fun w => (w.data ++ [' ']).isPrefixOf t.data)) = true then
        (if optCharIn FLUSH_PUNCT ((jsTrimEnd t.data).getLast?) then (r ++ [cur] ++ [t], "")
         else (r ++ [cur], t))
      else
        (if optCharIn FLUSH_PUNCT ((jsTrimEnd (cur ++ " " ++ t).data).getLast?) then
          (r ++ [cur ++ " " ++ t], "")
         else (r, cur ++ " " ++ t)) := by
  unfold textStep
  have hc : cur.data.isEmpty = false := by simp [List.isEmpty_iff, hcur]
  simp only [hc, Bool.false_eq_true, if_false, Bool.and_assoc]
  by_cases hB : ((match t.data.head? with
      | some c => c.toUpper == c
      | none => true) &&
    (!(optCharIn NEW_SENTENCE_PUNCT ((jsTrimEnd cur.data).getLast?)) &&
      !(CONTINUATION_WORDS.any fun w => (w.data ++ [' ']).isPrefixOf t.data))) = true
  · simp [hB]
  · simp [hB]

/-- A string strictly lengthens when another string is appended after a
space, hence the two are different. -/
lemma ne_append_space (cur t : String) : cur ++ " " ++ t ≠ cur := by
  intro h
  have := congrArg (fun s => s.data.length) h
  simp only [String.data_append] at this
  simp at this

/-- **C5, counterexample**  The cue text "42 is fine" does not begin with an
uppercase letter, so by the claim it should be appended to the open
accumulator "hello"; but the code's test is `firstChar ===
firstChar.toUpperCase()`, which holds for the digit '4', so a new paragraph
is opened instead. -/
theorem paragraph_rule_counterexample :
    processSegments [⟨"t1", "hello", none⟩, ⟨"t2", "42 is fine", none⟩] =
      "hello" ++ "\n\n" ++ "42 is fine" ∧
    ('4').isUpper = false ∧ (('4').toUpper == '4') = true := by
  decide

/-- **C5, amended**  For an assembly state with a non-empty accumulator and
a next non-empty, non-duplicate cue text: the step closes the accumulator
into the output as its own paragraph exactly when the first character of the
text equals its own uppercase mapping (true for every non-lowercase
character — digits and punctuation included — not only uppercase letters),
the accumulator's last non-whitespace character is not one of `. ! ? : ;`,
and the text does not start with a continuation word followed by a space; in
every other case the text is appended to the accumulator separated by a
single space (after which the combined sentence may be flushed by its own
terminal punctuation). -/
theorem processStep_paragraph_boundary (st : AsmState) (seg : VttSegment)
    (h1 : st.current.data ≠ [])
    (h2 : (jsTrimS seg.content).data ≠ [])
    (h3 : st.seen.contains (jsTrimS seg.content) = false) :
    ((processStep st seg).result.take (st.result.length + 1) =
        st.result ++ [st.current] ↔
      ((match (jsTrimS seg.content).data.head? with
          | some c => c.toUpper == c
          | none => true) &&
        !(optCharIn NEW_SENTENCE_PUNCT ((jsTrimEnd st.current.data).getLast?)) &&
        !(CONTINUATION_WORDS.any fun w =>
            (w.data ++ [' ']).isPrefixOf (jsTrimS seg.content).data)) = true) ∧
    (((match (jsTrimS seg.content).data.head? with
          | some c => c.toUpper == c
          | none => true) &&
        !(optCharIn NEW_SENTENCE_PUNCT ((jsTrimEnd st.current.data).getLast?)) &&
        !(CONTINUATION_WORDS.any fun w =>
            (w.data ++ [' ']).isPrefixOf (jsTrimS seg.content).data)) = false →
      (processStep st seg).current = st.current ++ " " ++ jsTrimS seg.content ∨
      ((processStep st seg).result =
          st.result ++ [st.current ++ " " ++ jsTrimS seg.content] ∧
        (processStep st seg).current = "")) := by
  rw [processStep_not_skipped st seg h2 h3]
  rw [textStep_cases st.result st.current (jsTrimS seg.content) h1]
  by_cases hB : ((match (jsTrimS seg.content).data.head? with
      | some c => c.toUpper == c
      | none => true) &&
    !(optCharIn NEW_SENTENCE_PUNCT ((jsTrimEnd st.current.data).getLast?)) &&
    !(CONTINUATION_WORDS.any fun w =>
        (w.data ++ [' ']).isPrefixOf (jsTrimS seg.content).data)) = true
  · rw [if_pos hB]
    by_cases hF : optCharIn FLUSH_PUNCT ((jsTrimEnd (jsTrimS seg.content).data).getLast?) = true
    · rw [if_pos hF]
      refine ⟨⟨fun _ => hB, fun _ => List.take_left' (by simp)⟩, fun hc => ?_⟩
      rw [hc] at hB
      exact Bool.noConfusion hB
    · rw [if_neg hF]
      refine ⟨⟨fun _ => hB, fun _ => List.take_of_length_le (by simp)⟩, fun hc => ?_⟩
      rw [hc] at hB
      exact Bool.noConfusion hB
  · rw [if_neg hB]
    by_cases hF : optCharIn FLUSH_PUNCT
        ((jsTrimEnd (st.current ++ " " ++ jsTrimS seg.content).data).getLast?) = true
    · rw [if_pos hF]
      refine ⟨⟨fun heq => ?_, fun hc => absurd hc hB⟩, fun _ => Or.inr ⟨rfl, rfl⟩⟩
      have heq' : (st.result ++ [st.current ++ " " ++ jsTrimS seg.content]).take
          (st.result.length + 1) = st.result ++ [st.current] := heq
      rw [List.take_of_length_le (by simp)] at heq'
      have h4 := List.append_cancel_left heq'
      injection h4 with h5 _
      exact (ne_append_space st.current (jsTrimS seg.content) h5).elim
    · rw [if_neg hF]
      refine ⟨⟨fun heq => ?_, fun hc => absurd hc hB⟩, fun _ => Or.inl rfl⟩
      have heq' : st.result.take (st.result.length + 1) = st.result ++ [st.current] := heq
      rw [List.take_of_length_le (by simp)] at heq'
      have h6 := congrArg List.length heq'
      simp at h6

/-- Witness for `processStep_paragraph_boundary`: accumulator "hello", next
cue text "Next thing" (opens a new paragraph, no flush). -/
theorem processStep_paragraph_boundary_witness :
    (("hello" : String).data ≠ [] ∧
      (jsTrimS (VttSegment.mk "t2" "Next thing" none).content).data ≠ [] ∧
      (["done"] : List String).contains
          (jsTrimS (VttSegment.mk "t2" "Next thing" none).content) = false) ∧
    (((processStep ⟨["done"], ["First."], "hello"⟩ ⟨"t2", "Next thing", none⟩).result.take
          ((["First."] : List String).length + 1) =
        ["First."] ++ ["hello"] ↔
      ((match (jsTrimS (VttSegment.mk "t2" "Next thing" none).content).data.head? with
          | some c => c.toUpper == c
          | none => true) &&
        !(optCharIn NEW_SENTENCE_PUNCT ((jsTrimEnd ("hello" : String).data).getLast?)) &&
        !(CONTINUATION_WORDS.any fun w =>
            (w.data ++ [' ']).isPrefixOf
              (jsTrimS (VttSegment.mk "t2" "Next thing" none).content).data)) = true) ∧
    (((match (jsTrimS (VttSegment.mk "t2" "Next thing" none).content).data.head? with
          | some c => c.toUpper == c
          | none => true) &&
        !(optCharIn NEW_SENTENCE_PUNCT ((jsTrimEnd ("hello" : String).data).getLast?)) &&
        !(CONTINUATION_WORDS.any fun w =>
            (w.data ++ [' ']).isPrefixOf
              (jsTrimS (VttSegment.mk "t2" "Next thing" none).content).data)) = false →
      (processStep ⟨["done"], ["First."], "hello"⟩ ⟨"t2", "Next thing", none⟩).current =
          "hello" ++ " " ++ jsTrimS (VttSegment.mk "t2" "Next thing" none).content ∨
      ((processStep ⟨["done"], ["First."], "hello"⟩ ⟨"t2", "Next thing", none⟩).result =
          ["First."] ++ ["hello" ++ " " ++ jsTrimS (VttSegment.mk "t2" "Next thing" none).content] ∧
        (processStep ⟨["done"], ["First."], "hello"⟩ ⟨"t2", "Next thing", none⟩).current = ""))) :=
  ⟨⟨by decide, by decide, by decide⟩,
   processStep_paragraph_boundary ⟨["done"], ["First."], "hello"⟩ ⟨"t2", "Next thing", none⟩
     (by decide) (by decide) (by decide)⟩

/-- A string with no characters is the empty string. -/
lemma eq_empty_of_data_eq_nil (s : String) (h : s.data = []) : s = "" := by
  cases s with
  | mk d => cases h; rfl

/-- A cue whose dedup guard fires is skipped: the state is unchanged. -/
lemma processStep_skipped (st : AsmState) (seg : VttSegment)
    (hg : (jsTrimS seg.content).data = [] ∨ jsTrimS seg.content ∈ st.seen) :
    processStep st seg = st := by
  unfold processStep
  simp [hg]

/-- The dedup-filtered fold of `processStep` is the plain fold of the
sentence logic over the surviving texts. -/
lemma foldl_processStep_eq (segs : List VttSegment) :
    ∀ st : AsmState,
      ((segs.foldl processStep st).result, (segs.foldl processStep st).current) =
        (visibleTexts st.seen segs).foldl textStep (st.result, st.current) := by
  induction segs with
  | nil => intro st; rfl
  | cons s rest ih =>
    intro st
    rw [List.foldl_cons]
    by_cases hg : (jsTrimS s.content).data = [] ∨ jsTrimS s.content ∈ st.seen
    · rw [processStep_skipped st s hg]
      have hvis : visibleTexts st.seen (s :: rest) = visibleTexts st.seen rest := by
        simp [visibleTexts, hg]
      rw [hvis]
      exact ih st
    · have h2 : (jsTrimS s.content).data ≠ [] := fun he => hg (Or.inl he)
      have h3' : jsTrimS s.content ∉ st.seen := fun hm => hg (Or.inr hm)
      have h3 : st.seen.contains (jsTrimS s.content) = false := by simpa using h3'
      rw [processStep_not_skipped st s h2 h3]
      have hvis : visibleTexts st.seen (s :: rest) =
          jsTrimS s.content :: visibleTexts (jsTrimS s.content :: st.seen) rest := by
        simp [visibleTexts, h2, h3']
      rw [hvis, List.foldl_cons]
      exact ih ⟨jsTrimS s.content :: st.seen,
        (textStep (st.result, st.current) (jsTrimS s.content)).1,
        (textStep (st.result, st.current) (jsTrimS s.content)).2⟩

/-- `visibleTexts` never emits a text already in the dedup set. -/
lemma visibleTexts_count_seen (segs : List VttSegment) :
    ∀ (seen : List String) (t : String), t ∈ seen →
      (visibleTexts seen segs).count t = 0 := by
  induction segs with
  | nil => intro seen t _; rfl
  | cons s rest ih =>
    intro seen t ht
    by_cases hg : (jsTrimS s.content).data = [] ∨ jsTrimS s.content ∈ seen
    · rw [show visibleTexts seen (s :: rest) = visibleTexts seen rest from by
        simp [visibleTexts, hg]]
      exact ih seen t ht
    · have h2 : (jsTrimS s.content).data ≠ [] := fun he => hg (Or.inl he)
      have h3' : jsTrimS s.content ∉ seen := fun hm => hg (Or.inr hm)
      rw [show visibleTexts seen (s :: rest) =
          jsTrimS s.content :: visibleTexts (jsTrimS s.content :: seen) rest from by
        simp [visibleTexts, h2, h3']]
      rw [List.count_cons]
      have hne : (jsTrimS s.content == t) = false := by
        simp only [beq_eq_false_iff_ne, ne_eq]
        intro heq
        exact h3' (heq ▸ ht)
      rw [hne]
      simpa using ih (jsTrimS s.content :: seen) t (by simp [ht])

/-- A non-empty text in the cue list and not yet in the dedup set is emitted
exactly once. -/
lemma visibleTexts_count_one (segs : List VttSegment) :
    ∀ (seen : List String) (t : String), t ≠ "" → t ∉ seen →
      t ∈ segs.map (fun s => jsTrimS s.content) →
      (visibleTexts seen segs).count t = 1 := by
  induction segs with
  | nil => intro seen t _ _ hmem; simp at hmem
  | cons s rest ih =>
    intro seen t ht hseen hmem
    by_cases hg : (jsTrimS s.content).data = [] ∨ jsTrimS s.content ∈ seen
    · rw [show visibleTexts seen (s :: rest) = visibleTexts seen rest from by
        simp [visibleTexts, hg]]
      apply ih seen t ht hseen
      rcases (by simpa using hmem : t = jsTrimS s.content ∨
          t ∈ rest.map fun s => jsTrimS s.content) with heq | hm
      · exfalso
        rcases hg with he | hs
        · exact ht (heq ▸ eq_empty_of_data_eq_nil _ he)
        · exact hseen (heq ▸ hs)
      · exact hm
    · have h2 : (jsTrimS s.content).data ≠ [] := fun he => hg (Or.inl he)
      have h3' : jsTrimS s.content ∉ seen := fun hm => hg (Or.inr hm)
      rw [show visibleTexts seen (s :: rest) =
          jsTrimS s.content :: visibleTexts (jsTrimS s.content :: seen) rest from by
        simp [visibleTexts, h2, h3']]
      rw [List.count_cons]
      by_cases hct : t = jsTrimS s.content
      · rw [visibleTexts_count_seen rest (jsTrimS s.content :: seen) t
          (by rw [hct]; exact List.mem_cons_self _ _)]
        simp [hct]
      · have hne : (jsTrimS s.content == t) = false := by
          simp only [beq_eq_false_iff_ne, ne_eq]
          intro heq
          exact hct heq.symm
        rw [hne]
        have hm : t ∈ rest.map fun s => jsTrimS s.content := by
          rcases (by simpa using hmem : t = jsTrimS s.content ∨
              t ∈ rest.map fun s => jsTrimS s.content) with heq | hm
          · exact absurd heq hct
          · exact hm
        simpa using ih (jsTrimS s.content :: seen) t ht (by simp [hseen, hct]) hm

/-- First segment file of the duplicate-text scenario (cue at 5 s). -/
def helloFileA : String := "WEBVTT\n\n00:00:05.000 --> 00:00:06.000\nHello world.\n"

/-- Second segment file of the duplicate-text scenario (same text at 2 s). -/
def helloFileB : String := "WEBVTT\n\n00:00:02.000 --> 00:00:03.000\nHello world.\n"

/-- **C3**  Dedup law: a non-empty trimmed cue text occurring at least twice
in the cue list is incorporated into the transcript exactly once (the
assembler's output is a function of `visibleTexts`, the dedup-filtered text
sequence, in which such a text occurs exactly once); concretely, two segment
files for one video both carrying the text "Hello world." assemble to the
single paragraph "Hello world.". -/
theorem dedup_law :
    (∀ (segs : List VttSegment) (t : String), t ≠ "" →
        2 ≤ (segs.map fun s => jsTrimS s.content).count t →
        (visibleTexts [] segs).count t = 1 ∧
        processSegments segs = joinParagraphs (assembleParagraphs (visibleTexts [] segs))) ∧
    assembleTranscript [helloFileA, helloFileB] = "Hello world." := by
  refine ⟨fun segs t ht hcount => ⟨?_, ?_⟩, by decide⟩
  · apply visibleTexts_count_one segs [] t ht (by simp)
    exact List.count_pos_iff.mp (by omega)
  · have h := foldl_processStep_eq segs ⟨[], [], ""⟩
    have h1 := congrArg Prod.fst h
    have h2 := congrArg Prod.snd h
    simp only [processSegments, assembleParagraphs]
    rw [show (segs.foldl processStep ⟨[], [], ""⟩).result =
        ((visibleTexts [] segs).foldl textStep ([], "")).1 from h1,
      show (segs.foldl processStep ⟨[], [], ""⟩).current =
        ((visibleTexts [] segs).foldl textStep ([], "")).2 from h2]

/-- Witness for `dedup_law`: two cues with the same text "Hello world.". -/
theorem dedup_law_witness :
    (("Hello world." : String) ≠ "" ∧
      2 ≤ (([⟨"a", "Hello world.", none⟩, ⟨"b", "Hello world.", none⟩] : List VttSegment).map
            fun s => jsTrimS s.content).count "Hello world.") ∧
    ((visibleTexts [] ([⟨"a", "Hello world.", none⟩, ⟨"b", "Hello world.", none⟩] : List VttSegment)).count
        "Hello world." = 1 ∧
      processSegments ([⟨"a", "Hello world.", none⟩, ⟨"b", "Hello world.", none⟩] : List VttSegment) =
        joinParagraphs (assembleParagraphs
          (visibleTexts [] ([⟨"a", "Hello world.", none⟩, ⟨"b", "Hello world.", none⟩] : List VttSegment)))) :=
  ⟨⟨by decide, by decide⟩, dedup_law.1 _ "Hello world." (by decide) (by decide)⟩

/-! ## C1: permutation invariance of assembly -/

instance : IsTotal VttSegment cueLE := ⟨fun a b => Nat.le_total _ _⟩

instance : IsTrans VttSegment cueLE := ⟨fun _ _ _ => Nat.le_trans⟩

/-- Strict start-time order on cues. -/
def cueLT (a b : VttSegment) : Prop := getStartTimeMs a < getStartTimeMs b

instance : IsAntisymm VttSegment cueLT := ⟨fun _ _ h1 h2 => absurd h1 (Nat.lt_asymm h2)⟩

/-- A segment file whose only cue reads "Bravo." at 1 s. -/
def tieFileA : String := "WEBVTT\n\n00:00:01.000 --> 00:00:02.000\nBravo.\n"

/-- A segment file whose only cue reads "Alpha." at the same 1 s. -/
def tieFileB : String := "WEBVTT\n\n00:00:01.000 --> 00:00:02.000\nAlpha.\n"

/-- **C1, counterexample**  Two segment files whose cues carry the same
start time but different texts: the sort is stable, so the tie is broken by
file enumeration order, and the two enumeration orders of the same file set
produce different transcript bytes. -/
theorem assembly_perm_counterexample :
    [tieFileA, tieFileB].Perm [tieFileB, tieFileA] ∧
    assembleTranscript [tieFileA, tieFileB] ≠ assembleTranscript [tieFileB, tieFileA] := by
  exact ⟨List.Perm.swap _ _ _, by decide⟩

/-- **C1, amended**  For any permutation of the same set of segment files,
the assembled transcript is byte-identical provided the decoded cues have
pairwise distinct start-time keys (`getStartTimeMs`); with ties the stable
sort preserves file-enumeration order and the bytes can differ. -/
theorem assembleTranscript_perm_invariant (files₁ files₂ : List String)
    (hperm : files₁.Perm files₂)
    (hdistinct : (allCues files₁).Pairwise
      fun a b => getStartTimeMs a ≠ getStartTimeMs b) :
    assembleTranscript files₁ = assembleTranscript files₂ := by
  have hc : (allCues files₁).Perm (allCues files₂) := (hperm.map parseVttFile).flatten
  have hs1 : (sortCues (allCues files₁)).Perm (allCues files₁) := List.perm_insertionSort _ _
  have hs2 : (sortCues (allCues files₂)).Perm (allCues files₂) := List.perm_insertionSort _ _
  have hd1 : (sortCues (allCues files₁)).Pairwise
      (fun a b => getStartTimeMs a ≠ getStartTimeMs b) :=
    (List.Perm.pairwise_iff (fun h => Ne.symm h) hs1).mpr hdistinct
  have hd2 : (sortCues (allCues files₂)).Pairwise
      (fun a b => getStartTimeMs a ≠ getStartTimeMs b) :=
    (List.Perm.pairwise_iff (fun h => Ne.symm h) (hs2.trans hc.symm)).mpr hdistinct
  have hstrict1 : (sortCues (allCues files₁)).Pairwise cueLT :=
    (List.Pairwise.and (List.sorted_insertionSort cueLE (allCues files₁)) hd1).imp
      fun h => lt_of_le_of_ne h.1 h.2
  have hstrict2 : (sortCues (allCues files₂)).Pairwise cueLT :=
    (List.Pairwise.and (List.sorted_insertionSort cueLE (allCues files₂)) hd2).imp
      fun h => lt_of_le_of_ne h.1 h.2
  have heq : sortCues (allCues files₁) = sortCues (allCues files₂) :=
    List.eq_of_perm_of_sorted (hs1.trans (hc.trans hs2.symm)) hstrict1 hstrict2
  unfold assembleTranscript
  rw [heq]

/-- Witness for `assembleTranscript_perm_invariant`: the two "Hello world."
files (distinct start times 2 s and 5 s) in both enumeration orders. -/
theorem assembleTranscript_perm_invariant_witness :
    ([helloFileA, helloFileB].Perm [helloFileB, helloFileA] ∧
      (allCues [helloFileA, helloFileB]).Pairwise
        (fun a b => getStartTimeMs a ≠ getStartTimeMs b)) ∧
    assembleTranscript [helloFileA, helloFileB] =
      assembleTranscript [helloFileB, helloFileA] :=
  ⟨⟨List.Perm.swap _ _ _, by decide⟩,
   assembleTranscript_perm_invariant _ _ (List.Perm.swap _ _ _) (by decide)⟩

/-! ## C4 and C9: worker-pool draining -/

/-- The jobs a worker accounts for: its in-flight job plus its processed
jobs. -/
def workerView {Job : Type} (w : Worker Job) : List Job :=
  w.status.load ++ w.processed

/-- Replacing the worker at index `i` changes the flattened view of the
worker list by exactly the difference of that worker's own view. -/
lemma flatten_map_set_perm {α β : Type} (f : α → List β) :
    ∀ (l : List α) (i : Nat) (w w' : α) (g : List β),
      l[i]? = some w → (f w').Perm (g ++ f w) →
      ((l.set i w').map f).flatten.Perm (g ++ (l.map f).flatten) := by
  intro l
  induction l with
  | nil => intro i w w' g h _; simp at h
  | cons x xs ih =>
    intro i w w' g h hg
    cases i with
    | zero =>
      simp only [List.getElem?_cons_zero, Option.some.injEq] at h
      subst h
      simp only [List.set_cons_zero, List.map_cons, List.flatten_cons]
      have h1 := hg.append_right (xs.map f).flatten
      rw [List.append_assoc] at h1
      exact h1
    | succ m =>
      simp only [List.getElem?_cons_succ] at h
      simp only [List.set_cons_succ, List.map_cons, List.flatten_cons]
      have h1 := (ih m w w' g h hg).append_left (f x)
      have h2 : (f x ++ (g ++ (xs.map f).flatten)).Perm
          (g ++ (f x ++ (xs.map f).flatten)) := by
        rw [← List.append_assoc, ← List.append_assoc]
        exact List.perm_append_comm.append_right _
      exact h1.trans h2

/-- Flattening `n` empty lists gives the empty list. -/
lemma flatten_replicate_nil {α : Type} (n : Nat) :
    (List.replicate n ([] : List α)).flatten = [] := by
  induction n with
  | zero => rfl
  | succ m ih => simp [List.replicate_succ, ih]

/-- Pool invariant: the queue plus every worker's in-flight and processed
jobs is a permutation of the original job list; the failed list is a
permutation of the failed subset of the processed jobs; all workers closed
forces an empty queue; the worker count is positive. -/
def PoolInv {Job : Type} (succ : Job → Bool) (jobs : List Job)
    (s : PoolState Job) : Prop :=
  (s.queue ++ (s.workers.map workerView).flatten).Perm jobs ∧
  s.failed.Perm (((s.workers.map (·.processed)).flatten).filter fun j => !succ j) ∧
  ((∀ w ∈ s.workers, w.status = WStatus.closed) → s.queue = []) ∧
  0 < s.workers.length

/-- Every pool step preserves the invariant. -/
lemma poolInv_step {Job : Type} (succ : Job → Bool) (jobs : List Job)
    {s s' : PoolState Job} (hstep : PoolStep succ s s')
    (hinv : PoolInv succ jobs s) : PoolInv succ jobs s' := by
  obtain ⟨hq, hfail, _hclosed, hlen⟩ := hinv
  cases hstep with
  | pop i w j rest hw hst hqueue =>
    refine ⟨?_, ?_, ?_, by simpa using hlen⟩
    · have hview : (workerView { w with status := WStatus.processing j }).Perm
          ([j] ++ workerView w) := by
        simp [workerView, WStatus.load, hst]
      have hfl := flatten_map_set_perm workerView s.workers i w _ [j] hw hview
      have h1 := hfl.append_left rest
      rw [hqueue] at hq
      exact h1.trans (List.perm_middle.trans hq)
    · have hview : (({ w with status := WStatus.processing j } : Worker Job)).processed.Perm
          ([] ++ w.processed) := by simp
      have hfl := flatten_map_set_perm (fun w => w.processed) s.workers i w _ [] hw hview
      exact hfail.trans (hfl.filter fun j => !succ j).symm
    · intro hall
      exfalso
      have hi : i < s.workers.length := by
        rcases List.getElem?_eq_some_iff.mp hw with ⟨hli, _⟩
        exact hli
      have hself := @List.getElem?_set_self _ s.workers i
        { w with status := WStatus.processing j } hi
      rcases List.getElem?_eq_some_iff.mp hself with ⟨hl2, hget⟩
      have := hall _ (hget ▸ List.getElem_mem hl2)
      simp at this
  | popEmpty i w hw hst hqueue =>
    refine ⟨?_, ?_, fun _ => rfl, by simpa using hlen⟩
    · have hview : (workerView { w with status := WStatus.closed }).Perm
          ([] ++ workerView w) := by
        simp [workerView, WStatus.load, hst]
      have hfl := flatten_map_set_perm workerView s.workers i w _ [] hw hview
      rw [hqueue] at hq
      exact hfl.trans hq
    · have hview : (({ w with status := WStatus.closed } : Worker Job)).processed.Perm
          ([] ++ w.processed) := by simp
      have hfl := flatten_map_set_perm (fun w => w.processed) s.workers i w _ [] hw hview
      exact hfail.trans (hfl.filter fun j => !succ j).symm
  | finish i w j hw hst =>
    refine ⟨?_, ?_, ?_, by simpa using hlen⟩
    · have hview : (workerView (⟨WStatus.ready, w.processed ++ [j]⟩ : Worker Job)).Perm
          ([] ++ workerView w) := by
        simp only [workerView, WStatus.load, hst, List.nil_append]
        exact @List.perm_append_comm _ w.processed [j]
      have hfl := flatten_map_set_perm workerView s.workers i w _ [] hw hview
      exact (hfl.append_left s.queue).trans hq
    · have hview : ((⟨WStatus.ready, w.processed ++ [j]⟩ : Worker Job)).processed.Perm
          ([j] ++ w.processed) := @List.perm_append_comm _ w.processed [j]
      have hfl := flatten_map_set_perm (fun w => w.processed) s.workers i w _ [j] hw hview
      have hfilter := hfl.filter fun j => !succ j
      by_cases hs : succ j = true
      · rw [if_pos hs]
        rw [show List.filter (fun j => !succ j) ([j] ++ (s.workers.map (fun w => w.processed)).flatten) =
            List.filter (fun j => !succ j) ((s.workers.map (fun w => w.processed)).flatten) from by
          simp [List.filter_cons, hs]] at hfilter
        exact hfail.trans hfilter.symm
      · have hs' : succ j = false := by simpa using hs
        rw [if_neg (by simp [hs'])]
        rw [show List.filter (fun j => !succ j) ([j] ++ (s.workers.map (fun w => w.processed)).flatten) =
            j :: List.filter (fun j => !succ j) ((s.workers.map (fun w => w.processed)).flatten) from by
          simp [List.filter_cons, hs']] at hfilter
        exact (@List.perm_append_comm _ s.failed [j]).trans ((hfail.cons j).trans hfilter.symm)
    · intro hall
      exfalso
      have hi : i < s.workers.length := by
        rcases List.getElem?_eq_some_iff.mp hw with ⟨hli, _⟩
        exact hli
      have hself := @List.getElem?_set_self _ s.workers i
        (⟨WStatus.ready, w.processed ++ [j]⟩ : Worker Job) hi
      rcases List.getElem?_eq_some_iff.mp hself with ⟨hl2, hget⟩
      have := hall _ (hget ▸ List.getElem_mem hl2)
      simp at this

/-- The invariant holds in every reachable state. -/
lemma poolInv_reach {Job : Type} (succ : Job → Bool) (n : Nat) (jobs : List Job)
    (hn : 0 < n) {s : PoolState Job} (h : PoolReach succ n jobs s) :
    PoolInv succ jobs s := by
  induction h with
  | refl =>
    refine ⟨?_, ?_, ?_, ?_⟩
    · simp [initPool, workerView, WStatus.load, List.map_replicate, flatten_replicate_nil]
    · simp [initPool, List.map_replicate, flatten_replicate_nil]
    · intro hall
      exfalso
      have hmem : (⟨WStatus.ready, []⟩ : Worker Job) ∈ (initPool n jobs).workers :=
        List.mem_replicate.mpr ⟨by omega, rfl⟩
      have := hall _ hmem
      simp at this
    · simpa [initPool] using hn
  | tail _hsteps hstep ih => exact poolInv_step succ jobs hstep ih

/-- At a fully closed reachable state the processed jobs are a permutation
of the enqueued jobs, the queue is drained, and the failed list matches the
failed subset of the processed jobs. -/
lemma pool_final_state {Job : Type} (succ : Job → Bool) (n : Nat) (jobs : List Job)
    (s : PoolState Job) (hn : 1 ≤ n)
    (hreach : PoolReach succ n jobs s) (hclosed : AllClosed s) :
    ((s.workers.map (·.processed)).flatten).Perm jobs ∧ s.queue = [] ∧
    s.failed.Perm (((s.workers.map (·.processed)).flatten).filter fun j => !succ j) := by
  obtain ⟨hq, hfail, hcl, _hlen⟩ := poolInv_reach succ n jobs hn hreach
  have hqe : s.queue = [] := hcl hclosed
  have hmapeq : s.workers.map workerView = s.workers.map (·.processed) :=
    List.map_congr_left fun w hw => by
      simp [workerView, WStatus.load, hclosed w hw]
  refine ⟨?_, hqe, hfail⟩
  rw [hqe, hmapeq] at hq
  simpa using hq

/-- **C4**  Queue exhaustion: for any number `n ≥ 1` of workers, any job
list with at least one job, and any interleaving that runs until all workers
are closed, the jobs processed across all workers are a permutation of the
enqueued jobs — each enqueued job was removed by exactly one worker, no job
was processed twice, no job was dropped (every job's multiplicity is
preserved), and the total number of processed jobs is the queue length. -/
theorem workerPool_processes_each_job_once {Job : Type} [DecidableEq Job]
    (succ : Job → Bool) (n : Nat) (jobs : List Job) (s : PoolState Job)
    (hn : 1 ≤ n) (hm : 1 ≤ jobs.length)
    (hreach : PoolReach succ n jobs s) (hclosed : AllClosed s) :
    ((s.workers.map (·.processed)).flatten).Perm jobs ∧
    (∀ j : Job, ((s.workers.map (·.processed)).flatten).count j = jobs.count j) ∧
    (s.workers.map fun w => w.processed.length).sum = jobs.length ∧
    s.queue = [] := by
  obtain ⟨hperm, hqe, _⟩ := pool_final_state succ n jobs s hn hreach hclosed
  refine ⟨hperm, fun j => hperm.count_eq j, ?_, hqe⟩
  have hl := hperm.length_eq
  rw [List.length_flatten] at hl
  simpa [List.map_map, Function.comp] using hl

/-- **C9**  Failure isolation: for any success/failure outcome of the
per-job pipelines (an exception anywhere inside `processLecture` is caught
and becomes a `false` outcome), a run that ends with all workers closed has
still processed every enqueued job; the failed list is a permutation of
exactly the failed jobs (each failed job's identity is recorded), and the
reported `succeeded = total - failed` count equals the number of successful
jobs. -/
theorem workerPool_failure_isolation {Job : Type} (succ : Job → Bool) (n : Nat)
    (jobs : List Job) (s : PoolState Job) (hn : 1 ≤ n)
    (hreach : PoolReach succ n jobs s) (hclosed : AllClosed s) :
    s.failed.Perm (jobs.filter fun j => !succ j) ∧
    jobs.length - s.failed.length = (jobs.filter fun j => succ j).length ∧
    ((s.workers.map (·.processed)).flatten).Perm jobs := by
  obtain ⟨hperm, _hqe, hfail⟩ := pool_final_state succ n jobs s hn hreach hclosed
  have hfail2 : s.failed.Perm (jobs.filter fun j => !succ j) :=
    hfail.trans (hperm.filter fun j => !succ j)
  refine ⟨hfail2, ?_, hperm⟩
  have hsplit := (List.filter_append_perm (fun j => succ j) jobs).length_eq
  rw [List.length_append] at hsplit
  have hflen := hfail2.length_eq
  omega

/-- Final pool state of the one-worker, one-job, all-success run. -/
def poolRunFinal : PoolState Nat := ⟨[], [⟨WStatus.closed, [0]⟩], []⟩

/-- Witness for `workerPool_processes_each_job_once`: one worker drains the
one-job queue (pop, finish, close). -/
theorem workerPool_processes_each_job_once_witness :
    (1 ≤ 1 ∧ 1 ≤ ([0] : List Nat).length ∧
      PoolReach (fun _ => true) 1 [0] poolRunFinal ∧ AllClosed poolRunFinal) ∧
    (((poolRunFinal.workers.map (·.processed)).flatten).Perm [0] ∧
      (∀ j : Nat,
        ((poolRunFinal.workers.map (·.processed)).flatten).count j = ([0] : List Nat).count j) ∧
      (poolRunFinal.workers.map fun w => w.processed.length).sum = ([0] : List Nat).length ∧
      poolRunFinal.queue = []) := by
  have hreach : PoolReach (fun _ => true) 1 [0] poolRunFinal := by
    have h1 : PoolStep (fun _ => true) (initPool 1 [0])
        (⟨[], [⟨WStatus.processing 0, []⟩], []⟩ : PoolState Nat) :=
      PoolStep.pop _ 0 ⟨WStatus.ready, []⟩ 0 [] rfl rfl rfl
    have h2 : PoolStep (fun _ => true)
        (⟨[], [⟨WStatus.processing 0, []⟩], []⟩ : PoolState Nat)
        (⟨[], [⟨WStatus.ready, [0]⟩], []⟩ : PoolState Nat) :=
      PoolStep.finish _ 0 ⟨WStatus.processing 0, []⟩ 0 rfl rfl
    have h3 : PoolStep (fun _ => true)
        (⟨[], [⟨WStatus.ready, [0]⟩], []⟩ : PoolState Nat) poolRunFinal :=
      PoolStep.popEmpty _ 0 ⟨WStatus.ready, [0]⟩ rfl rfl rfl
    exact Relation.ReflTransGen.head h1 (Relation.ReflTransGen.head h2
      (Relation.ReflTransGen.head h3 Relation.ReflTransGen.refl))
  have hclosed : AllClosed poolRunFinal := by
    intro w hw
    simp only [poolRunFinal, List.mem_singleton] at hw
    rw [hw]
  exact ⟨⟨le_refl 1, by decide, hreach, hclosed⟩,
    workerPool_processes_each_job_once (fun _ => true) 1 [0] poolRunFinal
      (le_refl 1) (by decide) hreach hclosed⟩

/-- Final pool state of the one-worker, one-job, all-failure run. -/
def poolRunFinalFail : PoolState Nat := ⟨[], [⟨WStatus.closed, [7]⟩], [7]⟩

/-- Witness for `workerPool_failure_isolation`: the single job fails, the
worker still drains the queue and the failed job is reported. -/
theorem workerPool_failure_isolation_witness :
    (1 ≤ 1 ∧ PoolReach (fun _ => false) 1 [7] poolRunFinalFail ∧
      AllClosed poolRunFinalFail) ∧
    (poolRunFinalFail.failed.Perm (([7] : List Nat).filter fun j => !(fun _ => false) j) ∧
      ([7] : List Nat).length - poolRunFinalFail.failed.length =
        (([7] : List Nat).filter fun j => (fun _ => false) j).length ∧
      ((poolRunFinalFail.workers.map (·.processed)).flatten).Perm [7]) := by
  have hreach : PoolReach (fun _ => false) 1 [7] poolRunFinalFail := by
    have h1 : PoolStep (fun _ => false) (initPool 1 [7])
        (⟨[], [⟨WStatus.processing 7, []⟩], []⟩ : PoolState Nat) :=
      PoolStep.pop _ 0 ⟨WStatus.ready, []⟩ 7 [] rfl rfl rfl
    have h2 : PoolStep (fun _ => false)
        (⟨[], [⟨WStatus.processing 7, []⟩], []⟩ : PoolState Nat)
        (⟨[], [⟨WStatus.ready, [7]⟩], [7]⟩ : PoolState Nat) :=
      PoolStep.finish _ 0 ⟨WStatus.processing 7, []⟩ 7 rfl rfl
    have h3 : PoolStep (fun _ => false)
        (⟨[], [⟨WStatus.ready, [7]⟩], [7]⟩ : PoolState Nat) poolRunFinalFail :=
      PoolStep.popEmpty _ 0 ⟨WStatus.ready, [7]⟩ rfl rfl rfl
    exact Relation.ReflTransGen.head h1 (Relation.ReflTransGen.head h2
      (Relation.ReflTransGen.head h3 Relation.ReflTransGen.refl))
  have hclosed : AllClosed poolRunFinalFail := by
    intro w hw
    simp only [poolRunFinalFail, List.mem_singleton] at hw
    rw [hw]
  exact ⟨⟨le_refl 1, hreach, hclosed⟩,
    workerPool_failure_isolation (fun _ => false) 1 [7] poolRunFinalFail
      (le_refl 1) hreach hclosed⟩
